import Mathlib

/-!
# Subscription lifecycle of `internal/subscription/subscription.go`

A shallow embedding of the `Subscription` type with its constructor
`NewSubscription` and its two methods `Stop` and `Start`, together with the
polling goroutine that `Start` spawns.

Modelling conventions.

* A Go channel value (`chan struct{}`) is a reference into a heap of channels.
  References are natural numbers handed out by `make` in increasing order
  (`World.next` is the next free reference); `World.closed` lists the
  references on which `close` has been executed.  Nothing in the package ever
  sends on a channel, so "closed or not" is all a receive can observe.
* `close` on a closed channel panics in Go.  Every operation that can reach
  `close` therefore returns `Option World`, and `none` is the panic.
* A callback (`func(chan struct{})`) is supplied by the caller and its body is
  not part of the package; it is an opaque identifier, and every invocation is
  recorded in `World.log` together with the channel it was handed.
* The `fmt.Println` calls only write to standard output and are left out.
-/

namespace subscription

/-- The Go struct `Subscription`.  `Chat` is the `*tgbotapi.Chat` pointer,
`Params` the `map[string]string`, `Quitter` a channel reference. -/
structure Subscription where
  Chat : Nat
  LastIDs : List String
  Quitter : Nat
  Running : Bool
  Params : List (String × String)
deriving DecidableEq

/-- Program counter of the goroutine spawned by `Start`: about to execute the
`select` (`check`), about to execute `callback(s.Quitter)` (`call`), or
returned (`done`). -/
inductive PC where
  | check
  | call
  | done
deriving DecidableEq

/-- One goroutine `go func(quit chan struct{}) { for { select ... } }(s.Quitter)`:
its parameter `quit`, the captured `callback`, and where it stands. -/
structure Loop where
  quit : Nat
  callback : Nat
  pc : PC
deriving DecidableEq

/-- One executed `callback(s.Quitter)`: the goroutine (index in `World.loops`)
that made the call, the callback, and the channel passed as argument. -/
structure Invocation where
  loop : Nat
  callback : Nat
  handle : Nat
deriving DecidableEq

/-- The subscription, the channel heap, the spawned goroutines and the record of
callback invocations. -/
structure World where
  sub : Subscription
  next : Nat
  closed : List Nat
  loops : List Loop
  log : List Invocation
deriving DecidableEq

/-- `NewSubscription(chat, params)`: `make([]string, 0)`, `make(chan struct{})`
(the first channel of the heap, reference `0`), `Running: false`. -/
def NewSubscription (chat : Nat) (params : List (String × String)) : World :=
  { sub := { Chat := chat, LastIDs := [], Quitter := 0, Running := false, Params := params }
    next := 1
    closed := []
    loops := []
    log := [] }

/-- `close(h)`: panics (`none`) when `h` is already closed. -/
def closeChan (h : Nat) (w : World) : Option World :=
  if h ∈ w.closed then none else some { w with closed := h :: w.closed }

/-- `s.Quitter = make(chan struct{})`: allocate the next channel and store it. -/
def makeQuitter (w : World) : World :=
  { w with sub := { w.sub with Quitter := w.next }, next := w.next + 1 }

/-- `go func(quit chan struct{}) { ... }(s.Quitter)`: the argument `s.Quitter`
is evaluated by the `go` statement; the new goroutine starts at its `select`. -/
def goLoop (callback : Nat) (w : World) : World :=
  { w with loops := w.loops ++ [{ quit := w.sub.Quitter, callback := callback, pc := PC.check }] }

/-- `s.Running = b`. -/
def setRunning (b : Bool) (w : World) : World :=
  { w with sub := { w.sub with Running := b } }

/-- `func (s *Subscription) Stop()`. -/
def Stop (w : World) : Option World :=
  if !w.sub.Running then some w
  else (closeChan w.sub.Quitter w).map (setRunning false)

/-- `func (s *Subscription) Start(callback func(chan struct{}))`. -/
def Start (callback : Nat) (w : World) : Option World :=
  (if w.sub.Running then (closeChan w.sub.Quitter w).map makeQuitter else some w).map
    (fun w1 => setRunning true (goLoop callback w1))

/-- A method call on the subscription. -/
inductive Call where
  | start (callback : Nat)
  | stop
deriving DecidableEq

/-- Execute one call. -/
def Call.apply : Call → World → Option World
  | Call.start cb, w => Start cb w
  | Call.stop, w => Stop w

/-- Execute calls one after another; a panic ends the execution. -/
def run : List Call → World → Option World
  | [], w => some w
  | c :: cs, w => (c.apply w).bind (run cs)

/-- Number of spawned goroutines whose own channel `quit` is not closed: the
goroutines whose `select` can still take the `default` branch. -/
def liveLoops (w : World) : Nat :=
  w.loops.countP (fun l => decide (l.quit ∉ w.closed))

/-- One step of goroutine `i`.  At the `select`: the case `<-quit` is ready
exactly when `quit` is closed, then the goroutine returns; otherwise `default`
is taken.  At the call: `s.Quitter` is read and the callback invoked. -/
def loopStep (i : Nat) (w : World) : World :=
  match w.loops[i]? with
  | none => w
  | some l =>
    match l.pc with
    | PC.check =>
      if l.quit ∈ w.closed then { w with loops := w.loops.set i { l with pc := PC.done } }
      else { w with loops := w.loops.set i { l with pc := PC.call } }
    | PC.call =>
      { w with
        loops := w.loops.set i { l with pc := PC.check }
        log := w.log ++ [{ loop := i, callback := l.callback, handle := w.sub.Quitter }] }
    | PC.done => w

/-- An event of an execution in which goroutines run interleaved with calls (each
call atomic). -/
inductive Action where
  | call (c : Call)
  | loop (i : Nat)
deriving DecidableEq

/-- Execute one event. -/
def Action.apply : Action → World → Option World
  | Action.call c, w => c.apply w
  | Action.loop i, w => some (loopStep i w)

/-- Execute a schedule of events; a panic ends the execution. -/
def exec : List Action → World → Option World
  | [], w => some w
  | a :: as, w => (a.apply w).bind (exec as)

/-- The invocations recorded for goroutine `i`. -/
def invocationsOf (i : Nat) (w : World) : List Invocation :=
  w.log.filter (fun e => e.loop == i)

/-- Where a call stands when its statements are executed one at a time:
`readRunning` is the test of `s.Running`, `closeQuitter` is `close(s.Quitter)`,
`assignQuitter` is `s.Quitter = make(chan struct{})`, `spawnLoop` is the `go`
statement, `writeRunning` is the assignment to `s.Running`. -/
inductive CallPC where
  | readRunning
  | closeQuitter
  | assignQuitter
  | spawnLoop
  | writeRunning
  | finished
deriving DecidableEq

/-- A call in progress. -/
structure Thread where
  call : Call
  pc : CallPC
deriving DecidableEq

/-- One statement of a call in progress, following the bodies of `Stop` and
`Start`. -/
def threadStep (t : Thread) (w : World) : Option (Thread × World) :=
  match t.call, t.pc with
  | Call.stop, CallPC.readRunning =>
    some ({ t with pc := if !w.sub.Running then CallPC.finished else CallPC.closeQuitter }, w)
  | Call.stop, CallPC.closeQuitter =>
    (closeChan w.sub.Quitter w).map (fun w1 => ({ t with pc := CallPC.writeRunning }, w1))
  | Call.stop, CallPC.writeRunning =>
    some ({ t with pc := CallPC.finished }, setRunning false w)
  | Call.start _, CallPC.readRunning =>
    some ({ t with pc := if w.sub.Running then CallPC.closeQuitter else CallPC.spawnLoop }, w)
  | Call.start _, CallPC.closeQuitter =>
    (closeChan w.sub.Quitter w).map (fun w1 => ({ t with pc := CallPC.assignQuitter }, w1))
  | Call.start _, CallPC.assignQuitter =>
    some ({ t with pc := CallPC.spawnLoop }, makeQuitter w)
  | Call.start cb, CallPC.spawnLoop =>
    some ({ t with pc := CallPC.writeRunning }, goLoop cb w)
  | Call.start _, CallPC.writeRunning =>
    some ({ t with pc := CallPC.finished }, setRunning true w)
  | _, _ => some (t, w)

/-- The shared world and the calls in progress on it. -/
structure Config where
  world : World
  threads : List Thread
deriving DecidableEq

/-- Call number `j` executes its next statement. -/
def Config.step (j : Nat) (c : Config) : Option Config :=
  match c.threads[j]? with
  | none => some c
  | some t =>
    (threadStep t c.world).map (fun p => { world := p.2, threads := c.threads.set j p.1 })

/-- Execute an interleaving, given as the list of call numbers that move. -/
def Config.exec : List Nat → Config → Option Config
  | [], c => some c
  | j :: js, c => (c.step j).bind (Config.exec js)

/-- All calls at their first statement. -/
def Config.init (calls : List Call) (w : World) : Config :=
  { world := w, threads := calls.map (fun c => { call := c, pc := CallPC.readRunning }) }

/-- The interleaving in which calls `k, k+1, ..., k+n-1` run one after another,
each to completion (no call has more than five statements). -/
def serialSchedule (k n : Nat) : List Nat :=
  (List.range' k n).flatMap (fun j => List.replicate 5 j)

/-- Every channel reference held anywhere was returned by `make`. -/
def WellFormed (w : World) : Prop :=
  w.sub.Quitter < w.next ∧ (∀ h ∈ w.closed, h < w.next) ∧ (∀ l ∈ w.loops, l.quit < w.next)

instance (w : World) : Decidable (WellFormed w) := by
  unfold WellFormed; infer_instance

/-- What calls and goroutine steps maintain: references are allocated, a
goroutine whose channel is open polls the current `Quitter`, at most one
goroutine has an open channel, and none has while `Running` is false. -/
structure Inv (w : World) : Prop where
  wf : WellFormed w
  current : ∀ l ∈ w.loops, l.quit ∉ w.closed → l.quit = w.sub.Quitter
  atMostOne : liveLoops w ≤ 1
  stopped : w.sub.Running = false → liveLoops w = 0

/-- Goroutine `j` will not invoke its callback again: it has returned, or it
stands at its `select` with its channel closed. -/
def Dead (j : Nat) (v : World) : Prop :=
  ∃ k, v.loops[j]? = some k ∧ ((k.pc = PC.check ∧ k.quit ∈ v.closed) ∨ k.pc = PC.done)

theorem liveLoops_eq_zero_of (w : World) (h : ∀ l ∈ w.loops, l.quit ∈ w.closed) :
    liveLoops w = 0 := by
  unfold liveLoops
  rw [List.countP_eq_zero]
  intro l hl
  simpa using h l hl

theorem Inv_NewSubscription (chat : Nat) (params : List (String × String)) :
    Inv (NewSubscription chat params) := by
  refine ⟨?_, ?_, ?_, ?_⟩ <;> simp [NewSubscription, WellFormed, liveLoops]

theorem closeChan_eq_some {h : Nat} {w w1 : World} (hc : closeChan h w = some w1) :
    h ∉ w.closed ∧ w1 = { w with closed := h :: w.closed } := by
  unfold closeChan at hc
  split at hc
  · cases hc
  · exact ⟨by assumption, (Option.some.inj hc).symm⟩

theorem Inv_Stop {w w1 : World} (hi : Inv w) (hs : Stop w = some w1) : Inv w1 := by
  unfold Stop at hs
  split at hs
  · cases hs; exact hi
  · rename_i hrun
    rcases hc : closeChan w.sub.Quitter w with _ | w2
    · simp [hc] at hs
    · obtain ⟨hq, rfl⟩ := closeChan_eq_some hc
      simp [hc] at hs
      subst hs
      obtain ⟨⟨h1, h2, h3⟩, h4, _, _⟩ := hi
      have hall : ∀ l ∈ w.loops, l.quit ∈ w.sub.Quitter :: w.closed := by
        intro l hl
        by_cases hm : l.quit ∈ w.closed
        · exact List.mem_cons_of_mem _ hm
        · rw [h4 l hl hm]; exact List.mem_cons_self _ _
      have hz : liveLoops (setRunning false { w with closed := w.sub.Quitter :: w.closed }) = 0 :=
        liveLoops_eq_zero_of _ hall
      refine ⟨⟨h1, ?_, h3⟩, ?_, ?_, fun _ => hz⟩
      · intro h hh
        rcases List.mem_cons.1 hh with rfl | hh
        · exact h1
        · exact h2 h hh
      · intro l hl hn
        exact absurd (hall l hl) hn
      · rw [hz]; exact Nat.zero_le _

theorem Inv_Start {cb : Nat} {w w1 : World} (hi : Inv w) (hs : Start cb w = some w1) :
    Inv w1 := by
  obtain ⟨⟨h1, h2, h3⟩, h4, h5, h6⟩ := hi
  unfold Start at hs
  by_cases hrun : w.sub.Running = true
  · rcases hc : closeChan w.sub.Quitter w with _ | w2
    · simp [hrun, hc] at hs
    · obtain ⟨hq, rfl⟩ := closeChan_eq_some hc
      simp [hrun, hc] at hs
      subst hs
      have hnew : w.next ∉ w.sub.Quitter :: w.closed := by
        intro hm
        rcases List.mem_cons.1 hm with e | hm
        · omega
        · exact absurd (h2 _ hm) (Nat.lt_irrefl _)
      have hold : ∀ l ∈ w.loops, l.quit ∈ w.sub.Quitter :: w.closed := by
        intro l hl
        by_cases hm : l.quit ∈ w.closed
        · exact List.mem_cons_of_mem _ hm
        · rw [h4 l hl hm]; exact List.mem_cons_self _ _
      have hlive : liveLoops (setRunning true (goLoop cb
          (makeQuitter { w with closed := w.sub.Quitter :: w.closed }))) = 1 := by
        have h0 := liveLoops_eq_zero_of { w with closed := w.sub.Quitter :: w.closed } hold
        unfold liveLoops at h0 ⊢
        simp only [setRunning, goLoop, makeQuitter, List.countP_append, h0]
        simpa [List.countP_cons] using hnew
      refine ⟨⟨?_, ?_, ?_⟩, ?_, ?_, ?_⟩
      · simp [setRunning, goLoop, makeQuitter]
      · intro h hh
        simp only [setRunning, goLoop, makeQuitter] at hh ⊢
        rcases List.mem_cons.1 hh with rfl | hh
        · omega
        · have := h2 h hh; omega
      · intro l hl
        simp only [setRunning, goLoop, makeQuitter, List.mem_append, List.mem_singleton] at hl ⊢
        rcases hl with hl | rfl
        · have := h3 l hl; omega
        · simp
      · intro l hl hn
        simp only [setRunning, goLoop, makeQuitter, List.mem_append, List.mem_singleton] at hl hn ⊢
        rcases hl with hl | rfl
        · exact absurd (hold l hl) hn
        · rfl
      · rw [hlive]
      · intro hr
        simp [setRunning] at hr
  · have hrun2 : w.sub.Running = false := by simpa using hrun
    simp [hrun2] at hs
    subst hs
    have hlive : liveLoops (setRunning true (goLoop cb w)) ≤ 1 := by
      have h0 := h6 hrun2
      unfold liveLoops at h0 ⊢
      simp only [setRunning, goLoop, List.countP_append, h0]
      simp only [List.countP_cons, List.countP_nil]
      split <;> simp
    refine ⟨⟨h1, h2, ?_⟩, ?_, hlive, ?_⟩
    · intro l hl
      simp only [setRunning, goLoop, List.mem_append, List.mem_singleton] at hl
      rcases hl with hl | rfl
      · exact h3 l hl
      · exact h1
    · intro l hl hn
      simp only [setRunning, goLoop, List.mem_append, List.mem_singleton] at hl hn ⊢
      rcases hl with hl | rfl
      · exact h4 l hl hn
      · rfl
    · intro hr
      simp [setRunning] at hr

theorem countP_set_of_eq {α : Type} (p : α → Bool) :
    ∀ (ls : List α) (i : Nat) (a b : α), ls[i]? = some a → p b = p a →
      (ls.set i b).countP p = ls.countP p
  | [], _, _, _, h, _ => by simp at h
  | x :: xs, 0, a, b, h, hp => by
    simp at h
    subst h
    simp [List.countP_cons, hp]
  | x :: xs, i + 1, a, b, h, hp => by
    simp at h
    simp [List.countP_cons, countP_set_of_eq p xs i a b h hp]

theorem mem_set_of_getElem? {α : Type} :
    ∀ (ls : List α) (i : Nat) (a b x : α), ls[i]? = some a → x ∈ ls.set i b →
      x = b ∨ x ∈ ls
  | [], _, _, _, _, h, _ => by simp at h
  | y :: ys, 0, a, b, x, _, hx => by
    simp at hx
    rcases hx with rfl | hx
    · exact Or.inl rfl
    · exact Or.inr (List.mem_cons_of_mem _ hx)
  | y :: ys, i + 1, a, b, x, h, hx => by
    simp at h hx
    rcases hx with rfl | hx
    · exact Or.inr (List.mem_cons_self _ _)
    · rcases mem_set_of_getElem? ys i a b x h hx with h1 | h1
      · exact Or.inl h1
      · exact Or.inr (List.mem_cons_of_mem _ h1)

/-- A goroutine step only moves the program counter of that goroutine and, at a
call, appends to the log. -/
theorem loopStep_cases (i : Nat) (w : World) :
    loopStep i w = w ∨
    ∃ l pc, w.loops[i]? = some l ∧
      ((loopStep i w = { w with loops := w.loops.set i { l with pc := pc } }) ∨
       (l.pc = PC.call ∧ loopStep i w = { w with
          loops := w.loops.set i { l with pc := pc }
          log := w.log ++ [{ loop := i, callback := l.callback, handle := w.sub.Quitter }] })) := by
  unfold loopStep
  rcases hl : w.loops[i]? with _ | l
  · exact Or.inl rfl
  · rcases hpc : l.pc with _ | _ | _
    · by_cases hm : l.quit ∈ w.closed
      · exact Or.inr ⟨l, PC.done, rfl, Or.inl (by simp [hpc, hm])⟩
      · exact Or.inr ⟨l, PC.call, rfl, Or.inl (by simp [hpc, hm])⟩
    · exact Or.inr ⟨l, PC.check, rfl, Or.inr ⟨hpc, by simp [hpc]⟩⟩
    · exact Or.inl (by simp [hpc])

theorem Inv_set_pc {w : World} (hi : Inv w) (i : Nat) (l : Loop) (pc : PC) (log : List Invocation)
    (hl : w.loops[i]? = some l) :
    Inv { w with loops := w.loops.set i { l with pc := pc }, log := log } := by
  obtain ⟨⟨h1, h2, h3⟩, h4, h5, h6⟩ := hi
  have hmem : l ∈ w.loops := (List.getElem?_eq_some.1 hl).2 ▸ List.getElem_mem _
  have hlive : liveLoops { w with loops := w.loops.set i { l with pc := pc }, log := log }
      = liveLoops w := by
    unfold liveLoops
    exact countP_set_of_eq _ w.loops i l _ hl rfl
  refine ⟨⟨h1, h2, ?_⟩, ?_, ?_, ?_⟩
  · intro x hx
    rcases mem_set_of_getElem? w.loops i l _ x hl hx with rfl | hx
    · exact h3 l hmem
    · exact h3 x hx
  · intro x hx hn
    rcases mem_set_of_getElem? w.loops i l _ x hl hx with rfl | hx
    · exact h4 l hmem hn
    · exact h4 x hx hn
  · rw [hlive]; exact h5
  · intro hr; rw [hlive]; exact h6 hr

theorem Inv_loopStep {w : World} (hi : Inv w) (i : Nat) : Inv (loopStep i w) := by
  rcases loopStep_cases i w with h | ⟨l, pc, hl, h | ⟨_, h⟩⟩
  · rw [h]; exact hi
  · rw [h]; exact Inv_set_pc hi i l pc w.log hl
  · rw [h]; exact Inv_set_pc hi i l pc _ hl

theorem Inv_apply {a : Action} {w w1 : World} (hi : Inv w) (h : a.apply w = some w1) :
    Inv w1 := by
  cases a with
  | call c =>
    cases c with
    | start cb => exact Inv_Start hi h
    | stop => exact Inv_Stop hi h
  | loop i =>
    simp only [Action.apply, Option.some.injEq] at h
    subst h
    exact Inv_loopStep hi i

theorem Inv_exec : ∀ (acts : List Action) {w w1 : World}, Inv w → exec acts w = some w1 → Inv w1
  | [], w, w1, hi, h => by
    simp only [exec, Option.some.injEq] at h
    subst h
    exact hi
  | a :: acts, w, w1, hi, h => by
    simp only [exec] at h
    rcases ha : a.apply w with _ | w2
    · simp [ha] at h
    · simp only [ha, Option.some_bind] at h
      exact Inv_exec acts (Inv_apply hi ha) h

theorem exec_map_call : ∀ (cs : List Call) (w : World),
    exec (cs.map Action.call) w = run cs w
  | [], _ => rfl
  | c :: cs, w => by
    simp only [List.map_cons, exec, run, Action.apply]
    congr 1
    funext w1
    exact exec_map_call cs w1

theorem Inv_run {cs : List Call} {w w1 : World} (hi : Inv w) (h : run cs w = some w1) :
    Inv w1 :=
  Inv_exec (cs.map Action.call) hi (by rw [exec_map_call]; exact h)

theorem Call_frame {c : Call} {w w1 : World} (h : c.apply w = some w1) :
    w1.log = w.log ∧ (∀ x ∈ w.closed, x ∈ w1.closed) ∧
    ∃ ls : List Loop, w1.loops = w.loops ++ ls ∧ ∀ l ∈ ls, l.pc = PC.check := by
  cases c with
  | start cb =>
    simp only [Call.apply, Start] at h
    by_cases hrun : w.sub.Running = true
    · rcases hc : closeChan w.sub.Quitter w with _ | w2
      · simp [hrun, hc] at h
      · obtain ⟨_, rfl⟩ := closeChan_eq_some hc
        simp [hrun, hc] at h
        subst h
        refine ⟨rfl, fun x hx => List.mem_cons_of_mem _ hx, [_], rfl, ?_⟩
        simp
    · have hrun2 : w.sub.Running = false := by simpa using hrun
      simp [hrun2] at h
      subst h
      refine ⟨rfl, fun x hx => hx, [_], rfl, ?_⟩
      simp
  | stop =>
    simp only [Call.apply, Stop] at h
    split at h
    · cases h
      exact ⟨rfl, fun x hx => hx, [], by simp, by simp⟩
    · rcases hc : closeChan w.sub.Quitter w with _ | w2
      · simp [hc] at h
      · obtain ⟨_, rfl⟩ := closeChan_eq_some hc
        simp [hc] at h
        subst h
        exact ⟨rfl, fun x hx => List.mem_cons_of_mem _ hx, [], by simp [setRunning], by simp⟩

theorem getElem?_append_of_some {α : Type} (xs ys : List α) (j : Nat) (a : α)
    (h : xs[j]? = some a) : (xs ++ ys)[j]? = some a := by
  have hj : j < xs.length := (List.getElem?_eq_some.1 h).1
  rw [List.getElem?_append_left hj]
  exact h

theorem getElem?_of_append {α : Type} (xs ys : List α) (j : Nat) (a : α)
    (h : (xs ++ ys)[j]? = some a) : xs[j]? = some a ∨ a ∈ ys := by
  by_cases hj : j < xs.length
  · rw [List.getElem?_append_left hj] at h
    exact Or.inl h
  · rw [List.getElem?_append_right (Nat.le_of_not_lt hj)] at h
    exact Or.inr ((List.getElem?_eq_some.1 h).2 ▸ List.getElem_mem _)

theorem Dead_apply {j : Nat} {a : Action} {v v1 : World} (hd : Dead j v)
    (h : a.apply v = some v1) : Dead j v1 ∧ invocationsOf j v1 = invocationsOf j v := by
  obtain ⟨k, hk, hpc⟩ := hd
  cases a with
  | call c =>
    obtain ⟨hlog, hcl, ls, hls, _⟩ := Call_frame h
    refine ⟨⟨k, ?_, ?_⟩, ?_⟩
    · rw [hls]; exact getElem?_append_of_some _ _ _ _ hk
    · rcases hpc with ⟨h1, h2⟩ | h1
      · exact Or.inl ⟨h1, hcl _ h2⟩
      · exact Or.inr h1
    · simp [invocationsOf, hlog]
  | loop i =>
    simp only [Action.apply, Option.some.injEq] at h
    subst h
    by_cases hij : i = j
    · subst hij
      have hlt : i < v.loops.length := (List.getElem?_eq_some.1 hk).1
      rcases hpc with ⟨h1, h2⟩ | h1
      · have he : loopStep i v = { v with loops := v.loops.set i { k with pc := PC.done } } := by
          simp [loopStep, hk, h1, h2]
        rw [he]
        refine ⟨⟨{ k with pc := PC.done }, ?_, Or.inr rfl⟩, rfl⟩
        simp [hlt]
      · have he : loopStep i v = v := by simp [loopStep, hk, h1]
        rw [he]
        exact ⟨⟨k, hk, Or.inr h1⟩, rfl⟩
    · rcases loopStep_cases i v with he | ⟨l, pc, hl, he | ⟨_, he⟩⟩
      · rw [he]; exact ⟨⟨k, hk, hpc⟩, rfl⟩
      · rw [he]
        refine ⟨⟨k, ?_, hpc⟩, rfl⟩
        simp only
        rw [List.getElem?_set_ne hij]; exact hk
      · rw [he]
        refine ⟨⟨k, ?_, hpc⟩, ?_⟩
        · simp only
          rw [List.getElem?_set_ne hij]; exact hk
        · simp [invocationsOf, hij]

theorem Dead_exec {j : Nat} : ∀ (acts : List Action) {v v1 : World}, Dead j v →
    exec acts v = some v1 → Dead j v1 ∧ invocationsOf j v1 = invocationsOf j v
  | [], v, v1, hd, h => by
    simp only [exec, Option.some.injEq] at h
    subst h
    exact ⟨hd, rfl⟩
  | a :: acts, v, v1, hd, h => by
    simp only [exec] at h
    rcases ha : a.apply v with _ | v2
    · simp [ha] at h
    · simp only [ha, Option.some_bind] at h
      obtain ⟨hd2, he2⟩ := Dead_apply hd ha
      obtain ⟨hd1, he1⟩ := Dead_exec acts hd2 h
      exact ⟨hd1, he1.trans he2⟩

/-- A goroutine that has passed its check and whose channel has been closed since
either still stands at its call, or has made exactly that one invocation and
will make no other. -/
theorem inflight_apply {j : Nat} {a : Action} {v v1 : World} {k : Loop}
    (hk : v.loops[j]? = some k) (hpc : k.pc = PC.call) (hm : k.quit ∈ v.closed)
    (h : a.apply v = some v1) :
    (v1.loops[j]? = some k ∧ k.quit ∈ v1.closed ∧ invocationsOf j v1 = invocationsOf j v) ∨
    (Dead j v1 ∧ ∃ e : Invocation, e.loop = j ∧ e.callback = k.callback ∧
      invocationsOf j v1 = invocationsOf j v ++ [e]) := by
  cases a with
  | call c =>
    obtain ⟨hlog, hcl, ls, hls, _⟩ := Call_frame h
    refine Or.inl ⟨?_, hcl _ hm, ?_⟩
    · rw [hls]; exact getElem?_append_of_some _ _ _ _ hk
    · simp [invocationsOf, hlog]
  | loop i =>
    simp only [Action.apply, Option.some.injEq] at h
    subst h
    by_cases hij : i = j
    · subst hij
      have hlt : i < v.loops.length := (List.getElem?_eq_some.1 hk).1
      have he : loopStep i v = { v with
          loops := v.loops.set i { k with pc := PC.check }
          log := v.log ++ [{ loop := i, callback := k.callback, handle := v.sub.Quitter }] } := by
        simp [loopStep, hk, hpc]
      rw [he]
      refine Or.inr ⟨⟨{ k with pc := PC.check }, ?_, Or.inl ⟨rfl, hm⟩⟩,
        { loop := i, callback := k.callback, handle := v.sub.Quitter }, rfl, rfl, ?_⟩
      · simp [hlt]
      · simp [invocationsOf]
    · rcases loopStep_cases i v with he | ⟨l, pc, hl, he | ⟨_, he⟩⟩
      · rw [he]; exact Or.inl ⟨hk, hm, rfl⟩
      · rw [he]
        refine Or.inl ⟨?_, hm, rfl⟩
        simp only
        rw [List.getElem?_set_ne hij]; exact hk
      · rw [he]
        refine Or.inl ⟨?_, hm, ?_⟩
        · simp only
          rw [List.getElem?_set_ne hij]; exact hk
        · simp [invocationsOf, hij]

theorem inflight_exec {j : Nat} {k : Loop} : ∀ (acts : List Action) {v v1 : World},
    v.loops[j]? = some k → k.pc = PC.call → k.quit ∈ v.closed → exec acts v = some v1 →
    invocationsOf j v1 = invocationsOf j v ∨
    ∃ e : Invocation, e.loop = j ∧ e.callback = k.callback ∧
      invocationsOf j v1 = invocationsOf j v ++ [e]
  | [], v, v1, _, _, _, h => by
    simp only [exec, Option.some.injEq] at h
    subst h
    exact Or.inl rfl
  | a :: acts, v, v1, hk, hpc, hm, h => by
    simp only [exec] at h
    rcases ha : a.apply v with _ | v2
    · simp [ha] at h
    · simp only [ha, Option.some_bind] at h
      rcases inflight_apply hk hpc hm ha with ⟨hk2, hm2, he2⟩ | ⟨hd, e, h1, h2, he2⟩
      · rcases inflight_exec acts hk2 hpc hm2 h with he1 | ⟨e, h1, h2, he1⟩
        · exact Or.inl (he1.trans he2)
        · exact Or.inr ⟨e, h1, h2, by rw [he1, he2]⟩
      · exact Or.inr ⟨e, h1, h2, by rw [(Dead_exec acts hd h).2, he2]⟩

theorem Config.exec_append : ∀ (xs ys : List Nat) (c : Config),
    Config.exec (xs ++ ys) c = (Config.exec xs c).bind (Config.exec ys)
  | [], _, _ => rfl
  | x :: xs, ys, c => by
    simp only [List.cons_append, Config.exec]
    rcases c.step x with _ | c1
    · rfl
    · simp only [Option.some_bind]
      exact Config.exec_append xs ys c1

/-- Five consecutive steps of a call that stands at its first statement execute
the whole call. -/
theorem exec_one_call (ts : List Thread) (j : Nat) (c : Call) (w : World)
    (hj : ts[j]? = some { call := c, pc := CallPC.readRunning }) :
    Config.exec (List.replicate 5 j) { world := w, threads := ts }
      = (c.apply w).map
          (fun w1 => { world := w1, threads := ts.set j { call := c, pc := CallPC.finished } }) := by
  have hlt : j < ts.length := (List.getElem?_eq_some.1 hj).1
  cases c with
  | start cb =>
    by_cases hrun : w.sub.Running = true
    · by_cases hm : w.sub.Quitter ∈ w.closed
      · simp [List.replicate, Config.exec, Config.step, threadStep, Call.apply, Start, closeChan,
          hj, hlt, hrun, hm]
      · simp [List.replicate, Config.exec, Config.step, threadStep, Call.apply, Start, closeChan,
          hj, hlt, hrun, hm, setRunning, goLoop, makeQuitter]
    · have hrun2 : w.sub.Running = false := by simpa using hrun
      simp [List.replicate, Config.exec, Config.step, threadStep, Call.apply, Start,
        hj, hlt, hrun2, setRunning, goLoop]
  | stop =>
    by_cases hrun : w.sub.Running = true
    · by_cases hm : w.sub.Quitter ∈ w.closed
      · simp [List.replicate, Config.exec, Config.step, threadStep, Call.apply, Stop, closeChan,
          hj, hlt, hrun, hm]
      · simp [List.replicate, Config.exec, Config.step, threadStep, Call.apply, Stop, closeChan,
          hj, hlt, hrun, hm, setRunning]
    · have hrun2 : w.sub.Running = false := by simpa using hrun
      simp [List.replicate, Config.exec, Config.step, threadStep, Call.apply, Stop,
        hj, hlt, hrun2]

theorem serialSchedule_succ (k n : Nat) :
    serialSchedule k (n + 1) = List.replicate 5 k ++ serialSchedule (k + 1) n := by
  simp [serialSchedule, List.range'_succ, List.flatMap_cons]

theorem exec_serial : ∀ (calls : List Call) (fin : List Thread) (w : World),
    Config.exec (serialSchedule fin.length calls.length)
        { world := w,
          threads := fin ++ calls.map (fun c => { call := c, pc := CallPC.readRunning }) }
      = (run calls w).map (fun w1 =>
          { world := w1,
            threads := fin ++ calls.map (fun c => { call := c, pc := CallPC.finished }) })
  | [], fin, w => by
    simp [serialSchedule, Config.exec, run]
  | c :: cs, fin, w => by
    have hj : (fin ++ List.map (fun c => ({ call := c, pc := CallPC.readRunning } : Thread))
        (c :: cs))[fin.length]? = some { call := c, pc := CallPC.readRunning } := by
      rw [List.getElem?_append_right (Nat.le_refl _)]
      simp
    rw [List.length_cons, serialSchedule_succ, Config.exec_append, exec_one_call _ _ c w hj, run]
    rcases c.apply w with _ | w1
    · rfl
    · have hset : (fin ++ List.map (fun c => ({ call := c, pc := CallPC.readRunning } : Thread))
          (c :: cs)).set fin.length { call := c, pc := CallPC.finished }
          = (fin ++ [{ call := c, pc := CallPC.finished }])
              ++ cs.map (fun c => { call := c, pc := CallPC.readRunning }) := by
        simp
      have ih := exec_serial cs (fin ++ [{ call := c, pc := CallPC.finished }]) w1
      simp only [List.length_append, List.length_singleton] at ih
      simp only [Option.map_some', Option.some_bind, hset, ih]
      simp

theorem Stop_of_stopped {w : World} (hr : w.sub.Running = false) : Stop w = some w := by
  simp [Stop, hr]

theorem Stop_result_stopped {w w1 : World} (hs : Stop w = some w1) :
    w1.sub.Running = false := by
  unfold Stop at hs
  split at hs
  · cases hs; simpa using (by assumption : (!w.sub.Running) = true)
  · rcases hc : closeChan w.sub.Quitter w with _ | w2
    · simp [hc] at hs
    · simp [hc] at hs
      subst hs
      rfl

/-- Claim C1 (evaluated on the code). The claim says that no sequence of
sequential `Start`/`Stop` calls on a fresh subscription closes a handle twice.
On the code, `Start; Stop; Start` succeeds and leaves `Running` true with the
current `Quitter` already closed, and the following `Stop` (likewise a following
`Start`) executes `close` on that closed channel and panics. -/
theorem double_close_after_restart (chat : Nat) (params : List (String × String))
    (a b c : Nat) :
    (∃ w, run [Call.start a, Call.stop, Call.start b] (NewSubscription chat params) = some w ∧
      w.sub.Running = true ∧ w.sub.Quitter ∈ w.closed) ∧
    run [Call.start a, Call.stop, Call.start b, Call.stop] (NewSubscription chat params) = none ∧
    run [Call.start a, Call.stop, Call.start b, Call.start c] (NewSubscription chat params)
      = none := by
  refine ⟨⟨_, rfl, rfl, ?_⟩, rfl, rfl⟩
  simp [setRunning, goLoop, NewSubscription]

/-- Claim C2 (evaluated on the code). The claim says that every `Start` schedules
its loop under a handle that is unsignalled when `Start` returns. On the code,
after `Start; Stop` the subscription is stopped with its `Quitter` closed, and
the next `Start` keeps that `Quitter`: the goroutine it spawns polls the closed
channel. -/
theorem Start_after_Stop_reuses_closed_handle (chat : Nat) (params : List (String × String))
    (a b : Nat) :
    ∃ w0 w1, run [Call.start a, Call.stop] (NewSubscription chat params) = some w0 ∧
      w0.sub.Running = false ∧
      Start b w0 = some w1 ∧
      w1.sub.Quitter = w0.sub.Quitter ∧
      w1.next = w0.next ∧
      w1.loops = w0.loops ++ [{ quit := w1.sub.Quitter, callback := b, pc := PC.check }] ∧
      w1.sub.Quitter ∈ w1.closed ∧
      liveLoops w1 = 0 := by
  refine ⟨_, _, rfl, rfl, rfl, rfl, rfl, rfl, ?_, ?_⟩
  · simp [setRunning, goLoop, NewSubscription]
  · simp [liveLoops, setRunning, goLoop, NewSubscription]

/-- Claim C3. For every finite sequence of sequential `Start`/`Stop` calls on a
fresh subscription, in the state reached (hence in every state reached along the
way, each being reached by a shorter sequence) at most one spawned loop has an
unsignalled handle. -/
theorem at_most_one_live_loop (chat : Nat) (params : List (String × String))
    (calls : List Call) (w : World)
    (hreach : run calls (NewSubscription chat params) = some w) :
    liveLoops w ≤ 1 :=
  (Inv_run (Inv_NewSubscription chat params) hreach).atMostOne

theorem at_most_one_live_loop_witness :
    run [Call.start 7, Call.start 8, Call.stop, Call.start 9] (NewSubscription 1 [])
      = some { sub := { Chat := 1, LastIDs := [], Quitter := 1, Running := true, Params := [] }
               next := 2
               closed := [1, 0]
               loops := [⟨0, 7, PC.check⟩, ⟨1, 8, PC.check⟩, ⟨1, 9, PC.check⟩]
               log := [] } ∧
    liveLoops { sub := { Chat := 1, LastIDs := [], Quitter := 1, Running := true, Params := [] }
                next := 2
                closed := [1, 0]
                loops := [⟨0, 7, PC.check⟩, ⟨1, 8, PC.check⟩, ⟨1, 9, PC.check⟩]
                log := [] } ≤ 1 :=
  ⟨by decide, at_most_one_live_loop 1 [] [Call.start 7, Call.start 8, Call.stop, Call.start 9] _
    (by decide)⟩

/-- Claim C4. On every state with `Running = false` -- in particular a fresh
subscription and the state right after a `Stop` -- `Stop` returns, closes no
handle and leaves every field unchanged (the whole state is returned as it was);
hence `Stop` followed by `Stop` equals a single `Stop`. -/
theorem Stop_noop_when_stopped :
    (∀ w : World, w.sub.Running = false → Stop w = some w) ∧
    (∀ chat params, Stop (NewSubscription chat params) = some (NewSubscription chat params)) ∧
    (∀ w w1 : World, Stop w = some w1 → w1.sub.Running = false ∧ Stop w1 = some w1) ∧
    (∀ w : World, (Stop w).bind Stop = Stop w) := by
  refine ⟨fun w hr => Stop_of_stopped hr, fun chat params => Stop_of_stopped rfl,
    fun w w1 hs => ⟨Stop_result_stopped hs, Stop_of_stopped (Stop_result_stopped hs)⟩, ?_⟩
  intro w
  rcases hs : Stop w with _ | w1
  · rfl
  · exact Stop_of_stopped (Stop_result_stopped hs)

theorem Stop_noop_when_stopped_witness :
    Stop { sub := { Chat := 1, LastIDs := [], Quitter := 0, Running := false, Params := [] }
           next := 1
           closed := [0]
           loops := [⟨0, 7, PC.check⟩]
           log := [] }
      = some { sub := { Chat := 1, LastIDs := [], Quitter := 0, Running := false, Params := [] }
               next := 1
               closed := [0]
               loops := [⟨0, 7, PC.check⟩]
               log := [] } :=
  Stop_noop_when_stopped.1 _ rfl

/-- Claim C5. On every state in which `Running` is true and the current handle
is unsignalled, `Start callback` signals the current handle, installs a new
handle (the one `make` returns) that differs from the old one and is
unsignalled, schedules the new loop under the new handle and leaves `Running`
true; the `go` statement is executed in a state in which the old handle is
already signalled. -/
theorem Start_restarts (callback : Nat) (w : World) (hwf : WellFormed w)
    (hrun : w.sub.Running = true) (hopen : w.sub.Quitter ∉ w.closed) :
    ∃ w1 w2, closeChan w.sub.Quitter w = some w1 ∧
      w.sub.Quitter ∈ (makeQuitter w1).closed ∧
      Start callback w = some w2 ∧
      w2 = setRunning true (goLoop callback (makeQuitter w1)) ∧
      w.sub.Quitter ∈ w2.closed ∧
      w2.sub.Quitter = w.next ∧
      w2.sub.Quitter ≠ w.sub.Quitter ∧
      w2.sub.Quitter ∉ w2.closed ∧
      w2.loops = w.loops ++ [{ quit := w2.sub.Quitter, callback := callback, pc := PC.check }] ∧
      w2.sub.Running = true := by
  obtain ⟨h1, h2, _⟩ := hwf
  have hc : closeChan w.sub.Quitter w = some { w with closed := w.sub.Quitter :: w.closed } := by
    simp [closeChan, hopen]
  refine ⟨_, _, hc, ?_, ?_, rfl, ?_, ?_, ?_, ?_, ?_, ?_⟩
  · simp [makeQuitter]
  · simp [Start, hrun, hc]
  · simp [setRunning, goLoop, makeQuitter]
  · simp [setRunning, goLoop, makeQuitter]
  · simp only [setRunning, goLoop, makeQuitter]; omega
  · simp only [setRunning, goLoop, makeQuitter, List.mem_cons, not_or]
    exact ⟨by omega, fun hm => absurd (h2 _ hm) (Nat.lt_irrefl _)⟩
  · simp [setRunning, goLoop, makeQuitter]
  · simp [setRunning, goLoop, makeQuitter]

theorem Start_restarts_witness :
    Start 8 { sub := { Chat := 1, LastIDs := [], Quitter := 0, Running := true, Params := [] }
              next := 1
              closed := []
              loops := [⟨0, 7, PC.check⟩]
              log := [] }
      = some { sub := { Chat := 1, LastIDs := [], Quitter := 1, Running := true, Params := [] }
               next := 2
               closed := [0]
               loops := [⟨0, 7, PC.check⟩, ⟨1, 8, PC.check⟩]
               log := [] } := by
  obtain ⟨w1, w2, h1, _, h3, h4, _⟩ := Start_restarts 8
    { sub := { Chat := 1, LastIDs := [], Quitter := 0, Running := true, Params := [] }
      next := 1
      closed := []
      loops := [⟨0, 7, PC.check⟩]
      log := [] } (by decide) rfl (by decide)
  rw [h3, h4]
  cases Option.some.inj h1
  rfl

/-- Claim C6. In every state reachable by sequential `Start`/`Stop` calls from a
fresh subscription in which `Stop` returns, afterwards `Running` is false and no
spawned loop has an unsignalled handle; the current handle has been signalled if
the subscription was running, and `Stop` neither replaces it nor allocates
one. -/
theorem Stop_postcondition (chat : Nat) (params : List (String × String))
    (calls : List Call) (w w1 : World)
    (hreach : run calls (NewSubscription chat params) = some w)
    (hstop : Stop w = some w1) :
    w1.sub.Running = false ∧
    liveLoops w1 = 0 ∧
    (∀ l ∈ w1.loops, l.quit ∈ w1.closed) ∧
    (w.sub.Running = true → w.sub.Quitter ∈ w1.closed) ∧
    w1.sub.Quitter = w.sub.Quitter ∧
    w1.next = w.next ∧
    w1.loops = w.loops := by
  have hi := Inv_run (Inv_NewSubscription chat params) hreach
  have hi1 := Inv_Stop hi hstop
  have hr : w1.sub.Running = false := Stop_result_stopped hstop
  have hz := hi1.stopped hr
  refine ⟨hr, hz, ?_, ?_, ?_, ?_, ?_⟩
  · intro l hl
    unfold liveLoops at hz
    rw [List.countP_eq_zero] at hz
    simpa using hz l hl
  all_goals
    unfold Stop at hstop
    split at hstop
    · rename_i hrun
      cases hstop
      simp at hrun
      simp [hrun]
    · rcases hc : closeChan w.sub.Quitter w with _ | w2
      · simp [hc] at hstop
      · obtain ⟨_, rfl⟩ := closeChan_eq_some hc
        simp [hc] at hstop
        subst hstop
        simp [setRunning]

theorem Stop_postcondition_witness :
    run [Call.start 7, Call.start 8] (NewSubscription 1 [])
      = some { sub := { Chat := 1, LastIDs := [], Quitter := 1, Running := true, Params := [] }
               next := 2
               closed := [0]
               loops := [⟨0, 7, PC.check⟩, ⟨1, 8, PC.check⟩]
               log := [] } ∧
    liveLoops { sub := { Chat := 1, LastIDs := [], Quitter := 1, Running := false, Params := [] }
                next := 2
                closed := [1, 0]
                loops := [⟨0, 7, PC.check⟩, ⟨1, 8, PC.check⟩]
                log := [] } = 0 :=
  ⟨by decide,
   (Stop_postcondition 1 [] [Call.start 7, Call.start 8] _
      { sub := { Chat := 1, LastIDs := [], Quitter := 1, Running := false, Params := [] }
        next := 2
        closed := [1, 0]
        loops := [⟨0, 7, PC.check⟩, ⟨1, 8, PC.check⟩]
        log := [] } rfl (by decide)).2.1⟩

/-- Claim C7 (evaluated on the code). The claim says that from every reachable
state two `Start` calls in a row complete and leave a live loop. On the code,
from the state reached by `Start; Stop` the first `Start` spawns a loop under
the closed `Quitter` and the second `Start` panics at `close(s.Quitter)`. -/
theorem Start_twice_after_Stop_panics (chat : Nat) (params : List (String × String))
    (a b c : Nat) :
    ∃ w0 w1, run [Call.start a, Call.stop] (NewSubscription chat params) = some w0 ∧
      Start b w0 = some w1 ∧ liveLoops w1 = 0 ∧
      Start c w1 = none ∧
      (Start b w0).bind (Start c) = none := by
  refine ⟨_, _, rfl, rfl, ?_, rfl, rfl⟩
  simp [liveLoops, setRunning, goLoop, NewSubscription]

/-- Claim C8. A loop spawned by `Start` that stands at the top of an iteration
examines its own handle first. If the handle is signalled the loop returns, and
whatever happens afterwards (further calls, steps of any goroutine including
this one) it makes no callback invocation; this covers a loop whose handle is
already signalled when it starts. If the handle is unsignalled the loop moves on
to the invocation. The log of invocations grows only by a goroutine step taken
at the call statement, and a goroutine stands at the call statement only from an
iteration whose check found the handle unsignalled. A step taken at the call
statement makes one invocation and brings the loop back to its check, so every
iteration starts with the check; a loop that has returned does nothing more.
Hence, once a loop's handle is signalled, under every schedule the loop makes no
further invocation, except the single one of an iteration whose check had
already found the handle unsignalled. -/
theorem loop_exits_on_cancellation (w : World) (i : Nat) (l : Loop)
    (hl : w.loops[i]? = some l) (hpc : l.pc = PC.check) :
    (l.quit ∈ w.closed →
      loopStep i w = { w with loops := w.loops.set i { l with pc := PC.done } } ∧
      ∀ acts w1, exec acts w = some w1 → invocationsOf i w1 = invocationsOf i w) ∧
    (l.quit ∉ w.closed →
      loopStep i w = { w with loops := w.loops.set i { l with pc := PC.call } }) ∧
    (∀ (a : Action) (v v1 : World), a.apply v = some v1 →
      v1.log = v.log ∨
      ∃ j k, a = Action.loop j ∧ v.loops[j]? = some k ∧ k.pc = PC.call ∧
        v1.log = v.log ++ [{ loop := j, callback := k.callback, handle := v.sub.Quitter }]) ∧
    (∀ (a : Action) (v v1 : World) (j : Nat) (k1 : Loop), a.apply v = some v1 →
      v1.loops[j]? = some k1 → k1.pc = PC.call →
      v.loops[j]? = some k1 ∨
      (a = Action.loop j ∧ ∃ k, v.loops[j]? = some k ∧ k.pc = PC.check ∧ k.quit ∉ v.closed)) ∧
    (∀ (v : World) (j : Nat) (k : Loop), v.loops[j]? = some k → k.pc = PC.call →
      loopStep j v = { v with
        loops := v.loops.set j { k with pc := PC.check }
        log := v.log ++ [{ loop := j, callback := k.callback, handle := v.sub.Quitter }] }) ∧
    (∀ (v : World) (j : Nat) (k : Loop), v.loops[j]? = some k → k.pc = PC.done →
      loopStep j v = v) ∧
    (∀ (v : World) (j : Nat), v.loops[j]? = none → loopStep j v = v) ∧
    (∀ (v v1 : World) (j : Nat) (k : Loop) (acts : List Action), v.loops[j]? = some k →
      k.quit ∈ v.closed → exec acts v = some v1 →
      invocationsOf j v1 = invocationsOf j v ∨
      (k.pc = PC.call ∧ ∃ e : Invocation, e.loop = j ∧ e.callback = k.callback ∧
        invocationsOf j v1 = invocationsOf j v ++ [e])) := by
  refine ⟨?_, ?_, ?_, ?_, ?_, ?_, ?_, ?_⟩
  · intro hm
    refine ⟨by simp [loopStep, hl, hpc, hm], ?_⟩
    intro acts w1 he
    exact (Dead_exec acts ⟨l, hl, Or.inl ⟨hpc, hm⟩⟩ he).2
  · intro hm
    simp [loopStep, hl, hpc, hm]
  · intro a v v1 h
    cases a with
    | call c => exact Or.inl (Call_frame h).1
    | loop j =>
      simp only [Action.apply, Option.some.injEq] at h
      subst h
      rcases loopStep_cases j v with he | ⟨k, pc, hk, he | ⟨hc, he⟩⟩
      · exact Or.inl (by rw [he])
      · exact Or.inl (by rw [he])
      · exact Or.inr ⟨j, k, rfl, hk, hc, by rw [he]⟩
  · intro a v v1 j k1 h hk1 hc
    cases a with
    | call c =>
      obtain ⟨_, _, ls, hls, hcheck⟩ := Call_frame h
      rw [hls] at hk1
      rcases getElem?_of_append _ _ _ _ hk1 with h1 | h1
      · exact Or.inl h1
      · rw [hcheck k1 h1] at hc; cases hc
    | loop n =>
      simp only [Action.apply, Option.some.injEq] at h
      subst h
      by_cases hnj : n = j
      · subst hnj
        rcases hk : v.loops[n]? with _ | k
        · left
          have he : loopStep n v = v := by simp [loopStep, hk]
          rw [he, hk] at hk1
          cases hk1
        · have hlt : n < v.loops.length := (List.getElem?_eq_some.1 hk).1
          rcases hkpc : k.pc with _ | _ | _
          · by_cases hm : k.quit ∈ v.closed
            · have he : loopStep n v
                  = { v with loops := v.loops.set n { k with pc := PC.done } } := by
                simp [loopStep, hk, hkpc, hm]
              rw [he] at hk1
              simp [hlt] at hk1
              rw [← hk1] at hc
              cases hc
            · exact Or.inr ⟨rfl, k, rfl, hkpc, hm⟩
          · have he : loopStep n v
                = { v with
                    loops := v.loops.set n { k with pc := PC.check }
                    log := v.log ++ [{ loop := n, callback := k.callback,
                                       handle := v.sub.Quitter }] } := by
              simp [loopStep, hk, hkpc]
            rw [he] at hk1
            simp [hlt] at hk1
            rw [← hk1] at hc
            cases hc
          · have he : loopStep n v = v := by simp [loopStep, hk, hkpc]
            rw [he] at hk1
            exact Or.inl (hk ▸ hk1)
      · left
        rcases loopStep_cases n v with he | ⟨k, pc, _, he | ⟨_, he⟩⟩
        · rw [he] at hk1; exact hk1
        · rw [he] at hk1
          simp only at hk1
          rw [List.getElem?_set_ne hnj] at hk1
          exact hk1
        · rw [he] at hk1
          simp only at hk1
          rw [List.getElem?_set_ne hnj] at hk1
          exact hk1
  · intro v j k hk hkpc
    simp [loopStep, hk, hkpc]
  · intro v j k hk hkpc
    simp [loopStep, hk, hkpc]
  · intro v j hk
    simp [loopStep, hk]
  · intro v v1 j k acts hk hm he
    rcases hkpc : k.pc with _ | _ | _
    · exact Or.inl (Dead_exec acts ⟨k, hk, Or.inl ⟨hkpc, hm⟩⟩ he).2
    · rcases inflight_exec acts hk hkpc hm he with h1 | h1
      · exact Or.inl h1
      · exact Or.inr ⟨rfl, h1⟩
    · exact Or.inl (Dead_exec acts ⟨k, hk, Or.inr hkpc⟩ he).2

theorem loop_exits_on_cancellation_witness :
    exec [Action.loop 1, Action.loop 0, Action.call Call.stop, Action.loop 1]
        { sub := { Chat := 1, LastIDs := [], Quitter := 0, Running := false, Params := [] }
          next := 1
          closed := [0]
          loops := [⟨0, 7, PC.done⟩, ⟨0, 8, PC.check⟩]
          log := [⟨0, 7, 0⟩] }
      = some { sub := { Chat := 1, LastIDs := [], Quitter := 0, Running := false, Params := [] }
               next := 1
               closed := [0]
               loops := [⟨0, 7, PC.done⟩, ⟨0, 8, PC.done⟩]
               log := [⟨0, 7, 0⟩] } ∧
    invocationsOf 1
        { sub := { Chat := 1, LastIDs := [], Quitter := 0, Running := false, Params := [] }
          next := 1
          closed := [0]
          loops := [⟨0, 7, PC.done⟩, ⟨0, 8, PC.done⟩]
          log := [⟨0, 7, 0⟩] }
      = invocationsOf 1
        { sub := { Chat := 1, LastIDs := [], Quitter := 0, Running := false, Params := [] }
          next := 1
          closed := [0]
          loops := [⟨0, 7, PC.done⟩, ⟨0, 8, PC.check⟩]
          log := [⟨0, 7, 0⟩] } :=
  ⟨by decide,
   ((loop_exits_on_cancellation
      { sub := { Chat := 1, LastIDs := [], Quitter := 0, Running := false, Params := [] }
        next := 1
        closed := [0]
        loops := [⟨0, 7, PC.done⟩, ⟨0, 8, PC.check⟩]
        log := [⟨0, 7, 0⟩] } 1 ⟨0, 8, PC.check⟩ rfl rfl).1 (by decide)).2
      [Action.loop 1, Action.loop 0, Action.call Call.stop, Action.loop 1] _ (by decide)⟩

/-- Claim C9 (as stated, refuted). With the statements of two calls interleaved:
two `Stop` calls on a running subscription both read `Running = true` and both
execute `close` on the same handle, so the second `close` panics, although the
same two calls executed one after the other do not; and two `Start` calls on a
fresh subscription both read `Running = false` and both spawn a loop under the
same open handle, leaving two live loops, although either sequential order
leaves one. -/
theorem overlapping_calls_counterexample :
    run [Call.start 7] (NewSubscription 1 [])
      = some { sub := { Chat := 1, LastIDs := [], Quitter := 0, Running := true, Params := [] }
               next := 1
               closed := []
               loops := [⟨0, 7, PC.check⟩]
               log := [] } ∧
    Config.exec [0, 1, 0, 1] (Config.init [Call.stop, Call.stop]
        { sub := { Chat := 1, LastIDs := [], Quitter := 0, Running := true, Params := [] }
          next := 1
          closed := []
          loops := [⟨0, 7, PC.check⟩]
          log := [] }) = none ∧
    (run [Call.stop, Call.stop]
        { sub := { Chat := 1, LastIDs := [], Quitter := 0, Running := true, Params := [] }
          next := 1
          closed := []
          loops := [⟨0, 7, PC.check⟩]
          log := [] }).isSome = true ∧
    (Config.exec [0, 1, 0, 1, 0, 1]
        (Config.init [Call.start 7, Call.start 8] (NewSubscription 1 []))).map
        (fun c => (liveLoops c.world, c.threads.map Thread.pc))
      = some (2, [CallPC.finished, CallPC.finished]) ∧
    (run [Call.start 7, Call.start 8] (NewSubscription 1 [])).map liveLoops = some 1 ∧
    (run [Call.start 8, Call.start 7] (NewSubscription 1 [])).map liveLoops = some 1 := by
  decide

/-- Claim C9 (amended). For every interleaving in which the calls are serialized
-- the statements of each call (read `Running`, close handle, assign new handle,
spawn loop, write `Running`) run contiguously, one call after the other -- the
execution equals the sequential execution of the calls in that order: it panics
exactly when the sequential execution does and otherwise ends in the same state
with every call finished; on a fresh subscription at most one live loop
results. -/
theorem serialized_calls_equal_sequential (calls : List Call) :
    (∀ w : World,
      Config.exec (serialSchedule 0 calls.length) (Config.init calls w)
        = (run calls w).map (fun w1 =>
            { world := w1,
              threads := calls.map (fun c => { call := c, pc := CallPC.finished }) })) ∧
    (∀ (chat : Nat) (params : List (String × String)) (c : Config),
      Config.exec (serialSchedule 0 calls.length) (Config.init calls (NewSubscription chat params))
        = some c →
      run calls (NewSubscription chat params) = some c.world ∧ liveLoops c.world ≤ 1) := by
  have h1 : ∀ w : World,
      Config.exec (serialSchedule 0 calls.length) (Config.init calls w)
        = (run calls w).map (fun w1 =>
            { world := w1,
              threads := calls.map (fun c => { call := c, pc := CallPC.finished }) }) := by
    intro w
    have h := exec_serial calls [] w
    simpa [Config.init] using h
  refine ⟨h1, ?_⟩
  intro chat params c hc
  rw [h1] at hc
  rcases hr : run calls (NewSubscription chat params) with _ | w1
  · simp [hr] at hc
  · simp [hr] at hc
    subst hc
    exact ⟨rfl, (Inv_run (Inv_NewSubscription chat params) hr).atMostOne⟩

theorem serialized_calls_equal_sequential_witness :
    Config.exec (serialSchedule 0 2) (Config.init [Call.start 7, Call.start 8] (NewSubscription 1 []))
      = some { world :=
                 { sub := { Chat := 1, LastIDs := [], Quitter := 1, Running := true, Params := [] }
                   next := 2
                   closed := [0]
                   loops := [⟨0, 7, PC.check⟩, ⟨1, 8, PC.check⟩]
                   log := [] }
               threads := [⟨Call.start 7, CallPC.finished⟩, ⟨Call.start 8, CallPC.finished⟩] } ∧
    liveLoops
        { sub := { Chat := 1, LastIDs := [], Quitter := 1, Running := true, Params := [] }
          next := 2
          closed := [0]
          loops := [⟨0, 7, PC.check⟩, ⟨1, 8, PC.check⟩]
          log := [] } ≤ 1 :=
  ⟨by decide,
   ((serialized_calls_equal_sequential [Call.start 7, Call.start 8]).2 1 []
      { world :=
          { sub := { Chat := 1, LastIDs := [], Quitter := 1, Running := true, Params := [] }
            next := 2
            closed := [0]
            loops := [⟨0, 7, PC.check⟩, ⟨1, 8, PC.check⟩]
            log := [] }
        threads := [⟨Call.start 7, CallPC.finished⟩, ⟨Call.start 8, CallPC.finished⟩] }
      (by decide)).2⟩

/-- Claim C10 (evaluated on the code). The claim says that every invocation hands
the callback the handle the invoking loop polls. On the code the goroutine polls
its parameter `quit` but calls `callback(s.Quitter)`, reading the field at the
moment of the call: after `Start a` the first goroutine passes its check (handle
`0` open); then `Start b` closes handle `0` and installs handle `1`; the first
goroutine then makes its invocation and hands callback `a` the handle `1`, while
the handle it polls is `0`, and at its next check it returns. -/
theorem old_loop_receives_new_handle (chat : Nat) (params : List (String × String))
    (a b : Nat) :
    (exec [Action.call (Call.start a), Action.loop 0, Action.call (Call.start b), Action.loop 0]
        (NewSubscription chat params)).map (fun w => (w.loops.map Loop.quit, w.log))
      = some ([0, 1], [{ loop := 0, callback := a, handle := 1 }]) ∧
    (exec [Action.call (Call.start a), Action.loop 0, Action.call (Call.start b), Action.loop 0,
           Action.loop 0]
        (NewSubscription chat params)).map (fun w => (w.loops.map Loop.pc, w.log))
      = some ([PC.done, PC.check], [{ loop := 0, callback := a, handle := 1 }]) := by
  exact ⟨rfl, rfl⟩

end subscription
